import Mathlib

/-!
# Verification of the mise-java crawl/extract/normalize/export pipeline

A shallow embedding of the Rust sources of the `mise-java` repository
(`src/jvm/vendor/oracle.rs`, `src/jvm/vendor/liberica_nik.rs`,
`src/cli/fetch.rs`, `src/cli/export/vendor.rs`) together with proofs of the
documented behavioural properties.

Conventions of the embedding:
* Rust `&str`/`String` values are modelled as Lean `String` (or `List Char`
  where structural reasoning on the characters is needed).
* Fallible operations (`eyre::Result`) are modelled as `Except String`.
* Network effects (`HTTP.get_text`) are modelled by injecting the fetch
  result as an explicit function argument.
* The two statically-known filename regular expressions are modelled as
  executable parsers whose match semantics is proved sound and complete
  against a declarative decomposition of the accepted language.
-/

set_option maxRecDepth 20000

namespace MiseJava

/-! ## Character-list helpers mirroring Rust `str` primitives -/

/-- Rust `str::starts_with`, on character lists. -/
def startsL : List Char → List Char → Bool
  | [], _ => true
  | _ :: _, [] => false
  | a :: as', b :: bs => a == b && startsL as' bs

/-- Rust `str::contains` (substring containment), on character lists:
`pat` occurs as a prefix of some suffix of the haystack. -/
def containsL (pat : List Char) : List Char → Bool
  | [] => startsL pat []
  | c :: cs => startsL pat (c :: cs) || containsL pat cs

/-- Strips `p` from the front of `s`; `some r` exactly when `s = p ++ r`. -/
def stripL : List Char → List Char → Option (List Char)
  | [], s => some s
  | _ :: _, [] => none
  | a :: as', b :: bs => if a = b then stripL as' bs else none

/-- Worker for `replaceL`, structurally recursive on a fuel that bounds the
number of characters still to examine (each step consumes at least one). -/
def replGo (pat rep : List Char) : Nat → List Char → List Char
  | 0, s => s
  | _, [] => []
  | fuel + 1, c :: cs =>
    if pat ≠ [] ∧ startsL pat (c :: cs) = true then
      rep ++ replGo pat rep fuel (cs.drop (pat.length - 1))
    else
      c :: replGo pat rep fuel cs

/-- Rust `str::replace`: replace all non-overlapping occurrences of `pat`,
left to right.  Every caller in this embedding passes a non-empty `pat`;
for `pat = []` the haystack is returned unchanged. -/
def replaceL (pat rep : List Char) (s : List Char) : List Char :=
  replGo pat rep s.length s

/-- Rust `str::contains` on `String`. -/
def containsS (s pat : String) : Bool := containsL pat.data s.data

/-- Rust `str::replace` on `String`. -/
def replaceS (s pat rep : String) : String := String.mk (replaceL pat.data rep.data s.data)

/-- First `some` produced by `f` along `l` (left to right). -/
def firstSome : List α → (α → Option β) → Option β
  | [], _ => none
  | a :: as', f =>
    match f a with
    | some b => some b
    | none => firstSome as' f

/-- No character of `l` is a newline.  The regex crate's `.` (and hence a
`.*?` capture) never matches `\n` without the `s` flag. -/
def nlFree (l : List Char) : Prop := ∀ c ∈ l, c ≠ '\n'

instance (l : List Char) : Decidable (nlFree l) :=
  List.decidableBAll (fun c => c ≠ '\n') l

/-- The decompositions `s = pre ++ post` that a lazy `.*?` capture can
produce under the regex crate's default semantics: prefixes are enumerated
in increasing length (leftmost-first order) and stop at the first `\n`,
which the capture cannot consume. -/
def dotSplits : List Char → List (List Char × List Char)
  | [] => [([], [])]
  | c :: cs =>
    ([], c :: cs) ::
      (if c = '\n' then []
       else (dotSplits cs).map (fun pq => (c :: pq.1, pq.2)))

/-! ### Basic lemmas about the helpers -/

theorem stripL_append (p r : List Char) : stripL p (p ++ r) = some r := by
  induction p with
  | nil => rfl
  | cons a as ih => simp [stripL, ih]

theorem stripL_eq_some {p s r : List Char} (h : stripL p s = some r) : s = p ++ r := by
  induction p generalizing s with
  | nil => simpa [stripL] using h
  | cons a as ih =>
    cases s with
    | nil => simp [stripL] at h
    | cons b bs =>
      by_cases hab : a = b
      · subst hab
        simp only [stripL, if_pos rfl] at h
        simpa using ih h
      · simp [stripL, hab] at h

theorem firstSome_eq_some {l : List α} {f : α → Option β} {b : β}
    (h : firstSome l f = some b) : ∃ a, a ∈ l ∧ f a = some b := by
  induction l with
  | nil => simp [firstSome] at h
  | cons x xs ih =>
    cases hx : f x with
    | some y =>
      refine ⟨x, List.mem_cons_self .., ?_⟩
      rw [firstSome, hx] at h
      rw [hx]
      exact h
    | none =>
      rw [firstSome, hx] at h
      obtain ⟨a, ha, hfa⟩ := ih h
      exact ⟨a, List.mem_cons_of_mem _ ha, hfa⟩

theorem firstSome_isSome {l : List α} {f : α → Option β} {a : α}
    (ha : a ∈ l) (hf : (f a).isSome = true) : (firstSome l f).isSome = true := by
  induction l with
  | nil => simp at ha
  | cons x xs ih =>
    simp only [firstSome]
    cases hx : f x with
    | some y => simp
    | none =>
      rcases List.mem_cons.mp ha with rfl | hmem
      · rw [hx] at hf; simp at hf
      · exact ih hmem

theorem dotSplits_sound {s : List Char} {pq : List Char × List Char}
    (h : pq ∈ dotSplits s) : s = pq.1 ++ pq.2 ∧ nlFree pq.1 := by
  induction s generalizing pq with
  | nil =>
    simp [dotSplits] at h
    simp [h, nlFree]
  | cons c cs ih =>
    simp only [dotSplits, List.mem_cons] at h
    rcases h with rfl | h
    · exact ⟨rfl, by simp [nlFree]⟩
    · by_cases hc : c = '\n'
      · rw [if_pos hc] at h
        simp at h
      · rw [if_neg hc] at h
        simp only [List.mem_map] at h
        obtain ⟨q, hq, rfl⟩ := h
        obtain ⟨h1, h2⟩ := ih hq
        refine ⟨by simpa using congrArg (c :: ·) h1, ?_⟩
        intro x hx
        rcases List.mem_cons.mp hx with rfl | hx
        · exact hc
        · exact h2 x hx

theorem dotSplits_complete (p q : List Char) (hp : nlFree p) :
    (p, q) ∈ dotSplits (p ++ q) := by
  induction p with
  | nil =>
    cases q with
    | nil => simp [dotSplits]
    | cons c cs => simp [dotSplits]
  | cons c cs ih =>
    have hc : c ≠ '\n' := hp c (List.mem_cons_self ..)
    simp only [List.cons_append, dotSplits, List.mem_cons]
    refine Or.inr ?_
    rw [if_neg hc]
    simp only [List.mem_map]
    exact ⟨(cs, q), ih (fun x hx => hp x (List.mem_cons_of_mem _ hx)), rfl⟩

theorem takeWhile_append_of_neg {p : Char → Bool} {v : List Char} (d : Char) (r : List Char)
    (hv : ∀ c ∈ v, p c = true) (hd : p d = false) :
    (v ++ d :: r).takeWhile p = v ∧ (v ++ d :: r).dropWhile p = d :: r := by
  induction v with
  | nil => simp [List.takeWhile, List.dropWhile, hd]
  | cons a as ih =>
    have ha : p a = true := hv a (List.mem_cons_self ..)
    have ih' := ih (fun c hc => hv c (List.mem_cons_of_mem _ hc))
    simp [List.takeWhile, List.dropWhile, ha, ih'.1, ih'.2]

/-! ## Data model

`JvmData` is the canonical release record (one per distributable artifact).
Modelled from the spec: the struct itself lives in `src/jvm/mod.rs`, which is
not part of the provided sources; its field set and types are reconstructed
from the spec's §3 data model and from the record literals in
`oracle.rs`/`liberica_nik.rs`.  The field defaults model the Rust
`Default` derive used via `..Default::default()`. -/
structure JvmData where
  architecture : String := ""
  checksum : Option String := none
  checksum_url : Option String := none
  features : Option (List String) := none
  file_type : String := ""
  filename : String := ""
  image_type : String := ""
  java_version : String := ""
  jvm_impl : String := ""
  os : String := ""
  release_type : String := ""
  size : Option Int := none
  url : String := ""
  vendor : String := ""
  version : String := ""
deriving DecidableEq

/-- An HTML anchor as produced by `anchors_from_doc` (declared in
`src/jvm/vendor/mod.rs`): its link target and its text. -/
structure AnchorElement where
  href : String
  name : String
deriving DecidableEq

/-- One entry of the Liberica NIK releases API payload
(struct `Release` in `src/jvm/vendor/liberica_nik.rs`). -/
structure Release where
  architecture : String := ""
  bundle_type : String := ""
  download_url : String := ""
  filename : String := ""
  ga : Bool := true
  os : String := ""
  package_type : String := ""
  sha1 : String := ""
  size : Nat := 0
  version : String := ""
deriving DecidableEq

/-- Rust `u64 as i32` (two's-complement wrap), used for `release.size as i32`. -/
def toI32 (n : Nat) : Int :=
  let m : Nat := n % 2 ^ 32
  if m < 2 ^ 31 then (m : Int) else (m : Int) - 2 ^ 32

/-! ## Canonicalization tables

Modelled from the spec: `normalize_os`, `normalize_architecture` and
`normalize_version` live in `src/jvm/vendor/mod.rs`, which is not part of the
provided sources.  Per spec §4.1 each is a pure total lookup over the known
vendor vocabulary, passing unrecognized raw tokens through unchanged, and
`normalize_version` unifies the vendor build-metadata separators (`_`, `-`)
into the canonical `+` delimiter.  No claim below depends on the concrete
table contents. -/

def osTable : List (String × String) := [("macos", "macosx"), ("osx", "macosx")]

def archTable : List (String × String) := [("x64", "x86_64"), ("amd64", "x86_64")]

/-- Modelled from the spec: canonical OS lookup with pass-through. -/
def normalize_os (raw : String) : String :=
  ((osTable.find? (fun p => p.1 == raw)).map Prod.snd).getD raw

/-- Modelled from the spec: canonical architecture lookup with pass-through. -/
def normalize_architecture (raw : String) : String :=
  ((archTable.find? (fun p => p.1 == raw)).map Prod.snd).getD raw

/-- Modelled from the spec: canonical version reshaping (separator unification). -/
def normalize_version (raw : String) : String :=
  String.mk (raw.data.map (fun c => if c = '_' ∨ c = '-' then '+' else c))

/-! ## Oracle filename parsing (`src/jvm/vendor/oracle.rs`)

The filename convention is the anchored regular expression

  jdk-([0-9+.]\x7b2,\x7d)_(linux|macos|windows)-(x64|aarch64)_bin\.(dep|dmg|exe|msi|rpm|tar\.gz|zip)

Because `_` is not in the class `[0-9+.]`, and because the alternations have
pairwise distinct first characters, the regex is deterministic and is
faithfully implemented by the straight-line parser below. -/

/-- The character class `[0-9+.]` of the version capture. -/
def verChar (c : Char) : Bool := c.isDigit || c == '+' || c == '.'

def jdkTok : List Char := "jdk-".data

def binTok : List Char := "_bin.".data

def osTokens : List (List Char) := ["linux".data, "macos".data, "windows".data]

def archTokens : List (List Char) := ["x64".data, "aarch64".data]

def oracleExts : List (List Char) :=
  ["dep".data, "dmg".data, "exe".data, "msi".data, "rpm".data, "tar.gz".data, "zip".data]

/-- First token of `toks` that is a prefix of `s`, with the rest of `s`;
implements a regex alternation whose branches have distinct first characters. -/
def firstTok (toks : List (List Char)) (s : List Char) : Option (List Char × List Char) :=
  match toks with
  | [] => none
  | t :: ts =>
    match stripL t s with
    | some r => some (t, r)
    | none => firstTok ts s

/-- Captures of the Oracle filename regex (struct `FileNameMeta` in `oracle.rs`). -/
structure OracleMeta where
  arch : String
  ext : String
  os : String
  version : String
deriving DecidableEq

/-- Stage of the Oracle regex after `(linux|macos|windows)-`: the
`(x64|aarch64)_bin\.(ext)$` part. -/
def oracleStage4 (ver os s4 : List Char) : Option OracleMeta :=
  match firstTok archTokens s4 with
  | none => none
  | some (arch, s5) =>
    match stripL binTok s5 with
    | none => none
    | some s6 =>
      if s6 ∈ oracleExts then
        some ⟨String.mk arch, String.mk s6, String.mk os, String.mk ver⟩
      else none

/-- Stage of the Oracle regex after `_`: the `(linux|macos|windows)-…` part. -/
def oracleStage3 (ver s2 : List Char) : Option OracleMeta :=
  match firstTok osTokens s2 with
  | none => none
  | some (os, s3) =>
    match stripL ['-'] s3 with
    | none => none
    | some s4 => oracleStage4 ver os s4

/-- Stage of the Oracle regex after the version capture: the length guard of
`[0-9+.]\x7b2,\x7d` and the `_` separator. -/
def oracleStage2 (ver rest : List Char) : Option OracleMeta :=
  if ver.length < 2 then none
  else
    match stripL ['_'] rest with
    | none => none
    | some s2 => oracleStage3 ver s2

/-- The Oracle filename regex as an executable parser on character lists.
The version capture is the maximal run of `[0-9+.]` characters (the class
excludes the `_` that must follow, so greediness cannot backtrack). -/
def oracleParse (s : List Char) : Option OracleMeta :=
  match stripL jdkTok s with
  | none => none
  | some s1 => oracleStage2 (s1.takeWhile verChar) (s1.dropWhile verChar)

/-- `meta_from_name` of `oracle.rs`. -/
def oracle_meta_from_name (name : String) : Except String OracleMeta :=
  match oracleParse name.data with
  | some m => .ok m
  | none => .error ("regular expression did not match for " ++ name)

/-- `replace_with_latest_version` of `oracle.rs`: `v.split('.').next().unwrap_or("")`. -/
def majorOf (v : String) : String := String.mk (v.data.takeWhile (fun c => c ≠ '.'))

/-- `replace_with_latest_version` of `oracle.rs` (the anchor is returned
instead of being mutated in place). -/
def replace_with_latest_version (anchor : AnchorElement) (latest_versions : List String) :
    AnchorElement :=
  if containsS anchor.href "/latest/" then
    { anchor with
      name :=
        ((latest_versions.find? (fun v => containsS anchor.name (majorOf v))).map
          (fun v => replaceS anchor.name ("jdk-" ++ majorOf v ++ "_") ("jdk-" ++ v ++ "_"))).getD
          anchor.name }
  else anchor

/-- Rust `str::split_whitespace().next()`: the first non-empty
whitespace-separated token, if any. -/
def firstWord (t : String) : Option String :=
  let w := (t.data.dropWhile (fun c => c.isWhitespace)).takeWhile (fun c => !c.isWhitespace)
  if w.isEmpty then none else some (String.mk w)

/-- Rust `name.split("/").last()`: the characters after the final `/` (the
whole string when there is no `/`).  `split` always yields at least one
piece, so the `ok_or` error branch of `map_release` is unreachable. -/
def lastSeg (s : String) : String :=
  String.mk ((s.data.reverse.takeWhile (fun c => c ≠ '/')).reverse)

/-- `map_release` of `oracle.rs`.  The checksum side-fetch (`HTTP.get_text`)
is injected as `fetchText`. -/
def oracle_map_release (fetchText : String → Except String String) (a : AnchorElement) :
    Except String JvmData :=
  match oracle_meta_from_name (lastSeg a.name) with
    | .error e => .error e
    | .ok m =>
      .ok
        { architecture := normalize_architecture m.arch
          checksum :=
            match fetchText (a.href ++ ".sha256") with
            | .ok t => (firstWord t).map (fun s => "sha256:" ++ s)
            | .error _ => none
          checksum_url := some (a.href ++ ".sha256")
          features := none
          filename := lastSeg a.name
          file_type := m.ext
          image_type := "jdk"
          java_version := normalize_version m.version
          jvm_impl := "hotspot"
          os := normalize_os m.os
          release_type := "ga"
          url := a.href
          version := normalize_version m.version
          vendor := "oracle" }

/-! ## Liberica NIK filename parsing (`src/jvm/vendor/liberica_nik.rs`)

The filename convention is the anchored regular expression

  bellsoft-liberica-vm(?:-core|-full)?-openjdk(.*?)-(.*?)(-ea)?-(.*?)-(.*?)-?(?:musl)?.(apk|deb|dmg|msi|pkg|rpm|tar\.gz|zip)

with lazy (`.*?`) captures `java`, `version`, `os`, `arch`, and a greedy
optional `-ea`, `-`, `musl`.  Note that the `.` before the extension is
unescaped, i.e. it matches any character other than a newline.  The parser
below implements leftmost-first (backtracking) match semantics directly:
each lazy capture scans its candidate splits in order of increasing length,
stopping at the first newline that `.` cannot consume (`dotSplits`), and
each greedy option tries the consuming branch first and falls back to the
empty branch. -/

def libExts : List (List Char) :=
  ["apk".data, "deb".data, "dmg".data, "msi".data, "pkg".data, "rpm".data,
   "tar.gz".data, "zip".data]

def muslTok : List Char := "musl".data

def eaTok : List Char := "-ea".data

def vmTok : List Char := "bellsoft-liberica-vm".data

def coreTok : List Char := "-core".data

def fullTok : List Char := "-full".data

def openTok : List Char := "-openjdk".data

/-- The regex tail `.(apk|…|zip)$`: one non-newline character followed by a
known extension that ends the string. -/
def dotExt (t : List Char) : Option (Char × List Char) :=
  match t with
  | [] => none
  | c :: rest => if c ≠ '\n' ∧ rest ∈ libExts then some (c, rest) else none

/-- The regex tail `(?:musl)?.(ext)$` (greedy option: consuming branch first). -/
def muslPart (t : List Char) : Option (Bool × Char × List Char) :=
  match stripL muslTok t with
  | some t2 =>
    match dotExt t2 with
    | some ce => some (true, ce.1, ce.2)
    | none => (dotExt t).map (fun ce => (false, ce.1, ce.2))
  | none => (dotExt t).map (fun ce => (false, ce.1, ce.2))

/-- Result of matching `-?(?:musl)?.(ext)$`: dash present, musl present, the
wildcard character, the extension. -/
structure TailRes where
  dash : Bool
  musl : Bool
  dot : Char
  ext : List Char
deriving DecidableEq

/-- Result from the `arch` capture on: arch, then the tail. -/
structure ArchRes where
  arch : List Char
  tail : TailRes
deriving DecidableEq

/-- Result from the `os` capture on: os, then arch and tail. -/
structure OsRes where
  os : List Char
  rest : ArchRes
deriving DecidableEq

/-- Result from the optional `-ea` on: whether `-ea` matched, then the rest. -/
structure EaRes where
  ea : Bool
  rest : OsRes
deriving DecidableEq

/-- Result from the `version` capture on. -/
structure VerRes where
  version : List Char
  rest : EaRes
deriving DecidableEq

/-- Result from the `java` capture on. -/
structure MidRes where
  java : List Char
  rest : VerRes
deriving DecidableEq

/-- The regex tail `-?(?:musl)?.(ext)$` (greedy option: consuming branch first). -/
def tailPart (t : List Char) : Option TailRes :=
  match stripL ['-'] t with
  | some t1 =>
    (match muslPart t1 with
     | some x => some ⟨true, x.1, x.2.1, x.2.2⟩
     | none => (muslPart t).map (fun x => ⟨false, x.1, x.2.1, x.2.2⟩))
  | none => (muslPart t).map (fun x => ⟨false, x.1, x.2.1, x.2.2⟩)

/-- The lazy `arch` capture followed by the tail. -/
def archPart (s : List Char) : Option ArchRes :=
  firstSome (dotSplits s) (fun pq => (tailPart pq.2).map (fun t => ⟨pq.1, t⟩))

/-- The lazy `os` capture, the literal `-`, then `archPart`. -/
def osPart (s : List Char) : Option OsRes :=
  firstSome (dotSplits s) (fun pq =>
    match stripL ['-'] pq.2 with
    | some r2 => (archPart r2).map (fun x => ⟨pq.1, x⟩)
    | none => none)

/-- The literal `-` before the `os` capture. -/
def dashOs (s : List Char) : Option OsRes :=
  match stripL ['-'] s with
  | some s2 => osPart s2
  | none => none

/-- The greedy optional `-ea` followed by `-` and `osPart`
(consuming branch first, falling back to the empty branch). -/
def eaPart (s : List Char) : Option EaRes :=
  match stripL eaTok s with
  | some s2 =>
    (match dashOs s2 with
     | some x => some ⟨true, x⟩
     | none => (dashOs s).map (fun x => ⟨false, x⟩))
  | none => (dashOs s).map (fun x => ⟨false, x⟩)

/-- The lazy `version` capture followed by `eaPart`. -/
def verPart (s : List Char) : Option VerRes :=
  firstSome (dotSplits s) (fun pq => (eaPart pq.2).map (fun x => ⟨pq.1, x⟩))

/-- The lazy `java` capture, the literal `-`, then `verPart`. -/
def libMid (s : List Char) : Option MidRes :=
  firstSome (dotSplits s) (fun pq =>
    match stripL ['-'] pq.2 with
    | some r2 => (verPart r2).map (fun x => ⟨pq.1, x⟩)
    | none => none)

/-- The whole Liberica regex.  The ordered alternation
`(?:-core|-full)?-openjdk` is implemented as a first-match chain on the
prefixes `-core-openjdk`, `-full-openjdk`, `-openjdk`; this is equivalent to
the regex's backtracking because the three candidates diverge pairwise at
the character after the leading `-` (`c`/`f`/`o`), so at most one branch can
ever reach the `-openjdk` literal. -/
def libParse (s : List Char) : Option (List Char × MidRes) :=
  match stripL vmTok s with
  | none => none
  | some r =>
    match stripL (coreTok ++ openTok) r with
    | some mid => (libMid mid).map (fun m => (coreTok, m))
    | none =>
      match stripL (fullTok ++ openTok) r with
      | some mid => (libMid mid).map (fun m => (fullTok, m))
      | none =>
        match stripL openTok r with
        | some mid => (libMid mid).map (fun m => (([] : List Char), m))
        | none => none

def midJava (m : MidRes) : List Char := m.java
def midVer (m : MidRes) : List Char := m.rest.version
def midEa (m : MidRes) : Bool := m.rest.rest.ea
def midOs (m : MidRes) : List Char := m.rest.rest.rest.os
def midArch (m : MidRes) : List Char := m.rest.rest.rest.rest.arch
def midDash (m : MidRes) : Bool := m.rest.rest.rest.rest.tail.dash
def midMusl (m : MidRes) : Bool := m.rest.rest.rest.rest.tail.musl
def midDot (m : MidRes) : Char := m.rest.rest.rest.rest.tail.dot
def midExt (m : MidRes) : List Char := m.rest.rest.rest.rest.tail.ext

/-! Reassembly of a match result into the string it matched. -/

def tailStr (t : TailRes) : List Char :=
  (if t.dash then ['-'] else []) ++ (if t.musl then muslTok else []) ++ t.dot :: t.ext

def archStr (a : ArchRes) : List Char := a.arch ++ tailStr a.tail

def osStr (o : OsRes) : List Char := o.os ++ '-' :: archStr o.rest

def eaStr (e : EaRes) : List Char := (if e.ea then eaTok else []) ++ '-' :: osStr e.rest

def verStr (v : VerRes) : List Char := v.version ++ eaStr v.rest

def midStr (m : MidRes) : List Char := m.java ++ '-' :: verStr m.rest

/-- Captures of the Liberica filename regex
(struct `FileNameMeta` in `liberica_nik.rs`). -/
structure LibMeta where
  arch : String
  ext : String
  java_version : String
  os : String
  version : String
deriving DecidableEq

/-- `meta_from_name` of `liberica_nik.rs`. -/
def liberica_meta_from_name (name : String) : Except String LibMeta :=
  match libParse name.data with
  | some bm =>
    .ok ⟨String.mk (midArch bm.2), String.mk (midExt bm.2), String.mk (midJava bm.2),
         String.mk (midOs bm.2), String.mk (midVer bm.2)⟩
  | none => .error ("regular expression did not match name: " ++ name)

/-- `normalize_features` of `liberica_nik.rs`. -/
def normalize_features (release : Release) : Option (List String) :=
  let features : List String := if containsS release.filename "-musl" then ["musl"] else []
  if features.isEmpty then none else some features

/-- `map_release` of `liberica_nik.rs`. -/
def liberica_map_release (release : Release) : Except String JvmData :=
  match liberica_meta_from_name release.filename with
  | .error e => .error e
  | .ok m =>
    .ok
      { architecture := normalize_architecture m.arch
        checksum := some ("sha1:" ++ release.sha1)
        file_type := release.package_type
        features := normalize_features release
        filename := release.filename
        image_type := "jdk"
        java_version := normalize_version m.java_version
        jvm_impl := "graalvm"
        os := normalize_os release.os
        release_type := if release.ga then "ga" else "ea"
        size := some (toI32 release.size)
        url := release.download_url
        vendor := "liberica-nik"
        version := normalize_version m.version }

/-! ## Merging and per-source `fetch_data`

The across-source result set is a Rust `HashSet<JvmData>`.  Modelled from the
spec: `JvmData`'s derived `Eq`/`Hash` (in `src/jvm/mod.rs`, not among the
provided sources) are structural per spec §3, so the set is modelled as a
`Finset JvmData` and `HashSet::extend` as a left fold of `insert`. -/

def mergeExtend (s : Finset JvmData) (data : List JvmData) : Finset JvmData :=
  data.foldl (fun acc r => insert r acc) s

/-- The item-mapping part of `Oracle::fetch_data` (lines 52-62 of
`oracle.rs`): drop GraalVM anchors, map the rest, keep the successes. -/
def oracleCollect (fetchText : String → Except String String)
    (anchors : List AnchorElement) : List JvmData :=
  (anchors.filter (fun a => !containsS a.href "graalvm-")).flatMap
    (fun anchor =>
      match oracle_map_release fetchText anchor with
      | .ok release => [release]
      | .error _ => [])

/-- `Oracle::fetch_data`, with the already-listed anchors injected (URL
listing and HTML parsing are transport effects outside the claim). -/
def oracle_fetch_data (fetchText : String → Except String String)
    (anchors : List AnchorElement) (jvm_data : Finset JvmData) :
    Except String (Finset JvmData) :=
  .ok (mergeExtend jvm_data (oracleCollect fetchText anchors))

/-- The item-mapping part of `LibericaNIK::fetch_data` (lines 38-51): drop
source bundles, keep only `-core-` bundles, map the rest, keep successes. -/
def libericaCollect (releases : List Release) : List JvmData :=
  ((releases.filter (fun r => !containsS r.filename "-src")).filter
      (fun r => containsS r.filename "-core-")).flatMap
    (fun release =>
      match liberica_map_release release with
      | .ok meta => [meta]
      | .error _ => [])

/-- `LibericaNIK::fetch_data`, with the `HTTP.get_json` result injected: a
transport-level failure escalates (the `?`), item failures never do. -/
def liberica_fetch_data (fetched : Except String (List Release))
    (jvm_data : Finset JvmData) : Except String (Finset JvmData) :=
  match fetched with
  | .error e => .error e
  | .ok releases => .ok (mergeExtend jvm_data (libericaCollect releases))

/-! ## Orchestration (`src/cli/fetch.rs`)

`Fetch::run` spawns one task per selected vendor.  Each task acquires a
repository handle, calls the vendor's `fetch`, and inserts the result; every
failure is only logged (`error!`) and terminates that task alone, and `run`
ends with `Ok(())` once all tasks have been joined by `pool.scope`.  The
external collaborators (database, vendor transport) are injected as the
per-vendor outcome record below; the task bodies are independent, so the
concurrent dispatch is modelled by processing the vendors as a list. -/

/-- The three fallible steps of one vendor task of `Fetch::run`:
`JvmRepository::new`, `vendor.fetch()`, `db.insert(&jvm_data)`. -/
structure VendorOutcome where
  dbConn : Except String Unit
  fetchRes : Except String (List JvmData)
  insertRes : Except String Nat

/-- The body of one spawned task (lines 36-63 of `fetch.rs`): the records the
task successfully hands to the persistence path; every failure exits the task
with nothing persisted. -/
def runUnit (o : VendorOutcome) : List JvmData :=
  match o.dbConn with
  | .error _ => []
  | .ok _ =>
    match o.fetchRes with
    | .error _ => []
    | .ok data =>
      match o.insertRes with
      | .error _ => []
      | .ok _ => data

/-- `Fetch::run` after the shared pools are acquired: process every unit,
return `Ok(())` unconditionally, with the persisted records as the
observable side effect. -/
def fetch_run (outcomes : List VendorOutcome) : Except String Unit × List JvmData :=
  (.ok (), (outcomes.map runUnit).flatten)

/-- Modelled from the spec: the fixed source registry `VENDORS` lives in
`src/jvm/vendor/mod.rs`, which is not among the provided sources; per spec
§9 it is a fixed list of adapter variants.  The two adapters whose sources
are provided are listed by their `get_name()` values. -/
def VENDORS : List String := ["liberica-nik", "oracle"]

/-- `Fetch::get_vendors` (lines 88-94 of `fetch.rs`), on adapter names: keep
the registered adapters whose name passes the emptiness-or-membership
filter.  The registry is a parameter so the statement covers any fixed
registry contents. -/
def get_vendors (requested : List String) (registry : List String) : List String :=
  registry.filter (fun n => requested.isEmpty || requested.contains n)

/-! ## Export by partition (`src/cli/export/vendor.rs`)

`Vendor::run` iterates the full cross product of the requested (or
store-derived) vendor/os/architecture value lists and writes one JSON array
per combination.  The store query `db.export_vendor`, the record predicate
`JvmData::filter` and the field projection `JvmData::map` (the latter two in
`src/jvm/mod.rs`, not among the provided sources) are injected as
functions; file-system mechanics are out of scope, so the run is modelled as
the list of written outputs keyed by their partition. -/

def listProd3 (vendors oses archs : List String) : List (String × String × String) :=
  vendors.flatMap (fun v => oses.flatMap (fun o => archs.map (fun a => (v, o, a))))

/-- The export loop of `Vendor::run` (lines 71-99): one output unit per
(vendor, os, architecture) combination, holding the filtered and projected
records of that partition. -/
def export_run (query : String → String → String → List JvmData)
    (keep : JvmData → Bool) (proj : JvmData → List (String × String))
    (vendors oses archs : List String) :
    List ((String × String × String) × List (List (String × String))) :=
  vendors.flatMap (fun vendor =>
    oses.flatMap (fun os =>
      archs.map (fun arch =>
        ((vendor, os, arch), ((query vendor os arch).filter keep).map proj))))

/-! ## Claim theorems -/

/-- C1: For every latest-alias anchor (one whose href contains "/latest/")
and every authoritative version listing, alias resolution keeps the href and
rewrites the anchor's filename by replacing the `jdk-<major>_` token of the
first listed version whose major line occurs in the filename with
`jdk-<full version>_`; if no version in the listing matches the filename's
major line, the filename is returned unchanged. -/
theorem oracle_latest_alias_resolution (a : AnchorElement) (L : List String)
    (h : containsS a.href "/latest/" = true) :
    (replace_with_latest_version a L).href = a.href ∧
    (L.find? (fun v => containsS a.name (majorOf v)) = none →
      (replace_with_latest_version a L).name = a.name) ∧
    (∀ v, L.find? (fun v => containsS a.name (majorOf v)) = some v →
      (replace_with_latest_version a L).name =
        replaceS a.name ("jdk-" ++ majorOf v ++ "_") ("jdk-" ++ v ++ "_")) := by
  unfold replace_with_latest_version
  rw [if_pos h]
  refine ⟨rfl, fun h2 => ?_, fun v hv => ?_⟩
  · simp [h2]
  · simp [hv]

/-- Witness for C1, on the repository's own test vectors: with listing
{"21.0.7", "24.0.1"} the latest-alias name referencing major line "21" is
rewritten to embed "21.0.7", and a name referencing major line "25" (matched
by nothing in the listing) is returned unchanged. -/
theorem oracle_latest_alias_resolution_witness :
    (replace_with_latest_version
        ⟨"https://download.oracle.com/java/21/latest/jdk-21_linux-aarch64_bin.tar.gz",
         "https://download.oracle.com/java/21/latest/jdk-21_linux-aarch64_bin.tar.gz"⟩
        ["21.0.7", "24.0.1"]).name =
      "https://download.oracle.com/java/21/latest/jdk-21.0.7_linux-aarch64_bin.tar.gz" ∧
    (replace_with_latest_version
        ⟨"https://d/java/25/latest/jdk-25_linux-x64_bin.tar.gz",
         "jdk-25_linux-x64_bin.tar.gz"⟩ ["21.0.7"]).name =
      "jdk-25_linux-x64_bin.tar.gz" := by
  constructor
  · have h := oracle_latest_alias_resolution
      ⟨"https://download.oracle.com/java/21/latest/jdk-21_linux-aarch64_bin.tar.gz",
       "https://download.oracle.com/java/21/latest/jdk-21_linux-aarch64_bin.tar.gz"⟩
      ["21.0.7", "24.0.1"] (by decide)
    rw [h.2.2 "21.0.7" (by decide)]
    decide
  · have h := oracle_latest_alias_resolution
      ⟨"https://d/java/25/latest/jdk-25_linux-x64_bin.tar.gz",
       "jdk-25_linux-x64_bin.tar.gz"⟩ ["21.0.7"] (by decide)
    exact h.2.1 (by decide)

/-- C2 counterexample: for an artifact whose auxiliary checksum fetch fails,
`map_release` still returns a record with `checksum = none`, but
`checksum_url` is `Some` of the derived sibling URL, not absent as the claim
states. -/
theorem oracle_checksum_url_counterexample :
    (oracle_map_release (fun _ => .error "unreachable")
        ⟨"https://x/jdk-21.0.1_linux-x64_bin.tar.gz",
         "https://x/jdk-21.0.1_linux-x64_bin.tar.gz"⟩).toOption.map
        (fun d => (d.checksum, d.checksum_url)) =
      some (none, some "https://x/jdk-21.0.1_linux-x64_bin.tar.gz.sha256") := by
  decide

/-- C2 (amended): for every artifact whose auxiliary checksum fetch fails,
the Oracle extractor's `map_release` still returns a record; in that record
the `checksum` field is absent, while `checksum_url` is always populated
with the derived `<href>.sha256` URL. -/
theorem oracle_checksum_best_effort
    (fetchText : String → Except String String) (a : AnchorElement) (d : JvmData) (e : String)
    (hfail : fetchText (a.href ++ ".sha256") = .error e)
    (hok : oracle_map_release fetchText a = .ok d) :
    d.checksum = none ∧ d.checksum_url = some (a.href ++ ".sha256") := by
  unfold oracle_map_release at hok
  cases hm : oracle_meta_from_name (lastSeg a.name) with
  | error err => rw [hm] at hok; cases hok
  | ok m =>
    rw [hm, hfail] at hok
    cases hok
    exact ⟨rfl, rfl⟩

/-- Witness for C2 (amended) at a concrete anchor and failing fetch. -/
theorem oracle_checksum_best_effort_witness :
    ∃ d, oracle_map_release (fun _ => .error "offline")
        ⟨"https://x/jdk-22_macos-aarch64_bin.dmg", "https://x/jdk-22_macos-aarch64_bin.dmg"⟩ =
      .ok d ∧ d.checksum = none ∧
      d.checksum_url = some ("https://x/jdk-22_macos-aarch64_bin.dmg" ++ ".sha256") := by
  have hsome : (oracle_map_release (fun _ => .error "offline")
      ⟨"https://x/jdk-22_macos-aarch64_bin.dmg",
       "https://x/jdk-22_macos-aarch64_bin.dmg"⟩).isOk = true := by decide
  cases hd : oracle_map_release (fun _ => .error "offline")
      ⟨"https://x/jdk-22_macos-aarch64_bin.dmg", "https://x/jdk-22_macos-aarch64_bin.dmg"⟩ with
  | error e =>
    rw [hd] at hsome
    simp [Except.isOk, Except.toBool] at hsome
  | ok d =>
    exact ⟨d, rfl, oracle_checksum_best_effort _ _ d "offline" rfl hd⟩

/-- C4: adding the same logical record (identical values in every field)
twice to the merged result set yields a set containing exactly one copy of
that record: `extend` over the structural-equality record set is idempotent
per element, and two identical insertions into the empty set leave a
one-element set. -/
theorem merge_dedup (r : JvmData) (s : Finset JvmData) :
    mergeExtend s [r, r] = insert r s ∧
    (mergeExtend ∅ [r, r]).card = 1 ∧ r ∈ mergeExtend ∅ [r, r] := by
  refine ⟨?_, ?_, ?_⟩
  · simp [mergeExtend, Finset.insert_idem]
  · simp [mergeExtend]
  · simp [mergeExtend]

/-- C5: source selection keeps exactly the registered adapters whose name is
in the requested list; unknown requested names are silently ignored, and an
empty request selects every registered adapter. -/
theorem source_selection (requested registry : List String) (n : String) :
    n ∈ get_vendors requested registry ↔
      n ∈ registry ∧ (requested = [] ∨ n ∈ requested) := by
  simp [get_vendors, List.mem_filter, List.isEmpty_iff, List.contains,
    List.elem_eq_mem]

/-- Witness for C5 on the concrete registry: an empty request selects a
registered vendor, a matching request selects it, and an unknown requested
name selects nothing. -/
theorem source_selection_witness :
    "oracle" ∈ get_vendors [] VENDORS ∧
    "oracle" ∈ get_vendors ["oracle"] VENDORS ∧
    "unknown-vendor" ∉ get_vendors ["unknown-vendor"] VENDORS := by
  refine ⟨?_, ?_, ?_⟩
  · exact (source_selection [] VENDORS "oracle").mpr ⟨by decide, Or.inl rfl⟩
  · exact (source_selection ["oracle"] VENDORS "oracle").mpr
      ⟨by decide, Or.inr (by simp)⟩
  · intro hmem
    exact absurd ((source_selection ["unknown-vendor"] VENDORS "unknown-vendor").mp hmem).1
      (by decide)

theorem oracleCollect_append (f : String → Except String String)
    (l1 l2 : List AnchorElement) :
    oracleCollect f (l1 ++ l2) = oracleCollect f l1 ++ oracleCollect f l2 := by
  simp [oracleCollect, List.filter_append, List.flatMap_append]

theorem libericaCollect_append (l1 l2 : List Release) :
    libericaCollect (l1 ++ l2) = libericaCollect l1 ++ libericaCollect l2 := by
  simp [libericaCollect, List.filter_append, List.flatMap_append]

/-- C6: an item whose filename fails to parse is excluded from the returned
record set while `fetch` still returns success with the records of all
remaining parseable items, for both provided sources. -/
theorem item_failure_isolation (fetchText : String → Except String String)
    (xs ys : List AnchorElement) (a : AnchorElement)
    (rs ts : List Release) (rel : Release) (s t : Finset JvmData) :
    (oracle_fetch_data fetchText (xs ++ a :: ys) s).isOk = true ∧
    ((oracle_map_release fetchText a).isOk = false →
      oracleCollect fetchText (xs ++ a :: ys) = oracleCollect fetchText (xs ++ ys)) ∧
    (liberica_fetch_data (.ok (rs ++ rel :: ts)) t).isOk = true ∧
    ((liberica_map_release rel).isOk = false →
      libericaCollect (rs ++ rel :: ts) = libericaCollect (rs ++ ts)) := by
  refine ⟨rfl, fun hbad => ?_, rfl, fun hbad => ?_⟩
  · have hone : oracleCollect fetchText [a] = [] := by
      cases hm : oracle_map_release fetchText a with
      | ok d => rw [hm] at hbad; simp [Except.isOk, Except.toBool] at hbad
      | error e =>
        by_cases hg : containsS a.href "graalvm-"
        · simp [oracleCollect, List.filter, hg]
        · simp only [Bool.not_eq_true] at hg
          simp [oracleCollect, List.filter, hg, hm]
    have := oracleCollect_append fetchText xs ([a] ++ ys)
    rw [show xs ++ a :: ys = xs ++ ([a] ++ ys) by simp] at *
    rw [this, oracleCollect_append fetchText [a] ys, hone,
      oracleCollect_append fetchText xs ys]
    simp
  · have hone : libericaCollect [rel] = [] := by
      cases hm : liberica_map_release rel with
      | ok d => rw [hm] at hbad; simp [Except.isOk, Except.toBool] at hbad
      | error e =>
        by_cases hsrc : containsS rel.filename "-src"
        · simp [libericaCollect, List.filter, hsrc]
        · simp only [Bool.not_eq_true] at hsrc
          by_cases hcore : containsS rel.filename "-core-"
          · simp [libericaCollect, List.filter, hsrc, hcore, hm]
          · simp only [Bool.not_eq_true] at hcore
            simp [libericaCollect, List.filter, hsrc, hcore]
    rw [show rs ++ rel :: ts = rs ++ ([rel] ++ ts) by simp,
      libericaCollect_append rs ([rel] ++ ts), libericaCollect_append [rel] ts, hone,
      libericaCollect_append rs ts]
    simp

/-- Witness for C6: one malformed anchor and one malformed API entry are
dropped while both fetches still succeed. -/
theorem item_failure_isolation_witness :
    (oracle_fetch_data (fun _ => .error "offline") [⟨"https://x/nope.zip", "nope.zip"⟩] ∅).isOk
      = true ∧
    oracleCollect (fun _ => .error "offline") [⟨"https://x/nope.zip", "nope.zip"⟩] = [] ∧
    (liberica_fetch_data (.ok [{ filename := "bellsoft-liberica-vm-core-bad" }]) ∅).isOk
      = true ∧
    libericaCollect [{ filename := "bellsoft-liberica-vm-core-bad" }] = [] := by
  have h := item_failure_isolation (fun _ => .error "offline")
    [] [] ⟨"https://x/nope.zip", "nope.zip"⟩
    [] [] { filename := "bellsoft-liberica-vm-core-bad" } ∅ ∅
  exact ⟨h.1, by simpa using h.2.1 (by decide), h.2.2.1, by simpa using h.2.2.2 (by decide)⟩

/-- C7: a fetch run returns success regardless of how many individual
sources fail to connect, fetch, or persist; a failing source contributes no
records. -/
theorem run_partial_failure (outcomes : List VendorOutcome) :
    (fetch_run outcomes).1 = .ok () ∧
    ∀ o ∈ outcomes,
      (o.dbConn.isOk = false ∨ o.fetchRes.isOk = false ∨ o.insertRes.isOk = false) →
        runUnit o = [] := by
  refine ⟨rfl, fun o _ hfail => ?_⟩
  rcases o with ⟨db, fet, ins⟩
  rcases hfail with h | h | h
  · cases db with
    | ok u => simp [Except.isOk, Except.toBool] at h
    | error e => rfl
  · cases db with
    | error e => rfl
    | ok u =>
      cases fet with
      | ok data => simp [Except.isOk, Except.toBool] at h
      | error e => rfl
  · cases db with
    | error e => rfl
    | ok u =>
      cases fet with
      | error e => rfl
      | ok data =>
        cases ins with
        | ok k => simp [Except.isOk, Except.toBool] at h
        | error e => rfl

/-- Witness for C7: a run over three sources failing at the connection,
fetch, and persist stages respectively still returns `Ok(())` and persists
nothing. -/
theorem run_partial_failure_witness :
    (fetch_run [⟨.error "conn", .ok [], .ok 0⟩,
                ⟨.ok (), .error "fetch", .ok 0⟩,
                ⟨.ok (), .ok [{ vendor := "oracle" }], .error "insert"⟩]).1 = .ok () ∧
    runUnit ⟨.error "conn", .ok [], .ok 0⟩ = [] ∧
    runUnit ⟨.ok (), .error "fetch", .ok 0⟩ = [] ∧
    runUnit ⟨.ok (), .ok [{ vendor := "oracle" }], .error "insert"⟩ = [] := by
  have h := run_partial_failure
    [⟨.error "conn", .ok [], .ok 0⟩,
     ⟨.ok (), .error "fetch", .ok 0⟩,
     ⟨.ok (), .ok [{ vendor := "oracle" }], .error "insert"⟩]
  refine ⟨h.1, ?_, ?_, ?_⟩
  · exact h.2 _ (by simp) (Or.inl rfl)
  · exact h.2 _ (by simp) (Or.inr (Or.inl rfl))
  · exact h.2 _ (by simp) (Or.inr (Or.inr rfl))

theorem inner_prod_length (v : String) (oses archs : List String) :
    (oses.flatMap (fun o => archs.map (fun a => (v, o, a)))).length =
      oses.length * archs.length := by
  induction oses with
  | nil => simp
  | cons o os ih => simp [ih, Nat.succ_mul]; omega

theorem listProd3_length (vendors oses archs : List String) :
    (listProd3 vendors oses archs).length =
      vendors.length * (oses.length * archs.length) := by
  induction vendors with
  | nil => simp [listProd3]
  | cons v vs ih =>
    simp only [listProd3, List.flatMap_cons, List.length_append] at *
    rw [ih, inner_prod_length, List.length_cons, Nat.succ_mul]
    omega

/-- C8: the export command produces exactly one output unit per
(vendor, os, architecture) combination in the cross product of the three
requested value lists — the sequence of written partitions is exactly the
cross product, so a combination with zero matching records still yields its
(empty) output unit rather than being skipped. -/
theorem export_partitions (query : String → String → String → List JvmData)
    (keep : JvmData → Bool) (proj : JvmData → List (String × String))
    (vendors oses archs : List String) :
    (export_run query keep proj vendors oses archs).map Prod.fst =
      listProd3 vendors oses archs ∧
    (export_run query keep proj vendors oses archs).length =
      vendors.length * (oses.length * archs.length) := by
  have hmap : (export_run query keep proj vendors oses archs).map Prod.fst =
      listProd3 vendors oses archs := by
    simp [export_run, listProd3, List.map_flatMap, List.map_map, Function.comp_def]
  refine ⟨hmap, ?_⟩
  have := congrArg List.length hmap
  rwa [List.length_map, listProd3_length] at this

/-- C9: the `features` field of a record, when present, is the non-empty
lower-case tag list ["musl"], present exactly when the filename contains
"-musl" (LibericaNIK), and the Oracle extractor never sets it. -/
theorem features_invariant (release : Release) :
    normalize_features release =
      (if containsS release.filename "-musl" then some ["musl"] else none) ∧
    (∀ fs, normalize_features release = some fs → fs = ["musl"]) ∧
    (∀ d, liberica_map_release release = .ok d → d.features = normalize_features release) ∧
    (∀ (fetchText : String → Except String String) (a : AnchorElement) (d : JvmData),
      oracle_map_release fetchText a = .ok d → d.features = none) := by
  have hshape : normalize_features release =
      (if containsS release.filename "-musl" then some ["musl"] else none) := by
    by_cases hm : containsS release.filename "-musl"
    · simp [normalize_features, hm]
    · simp only [Bool.not_eq_true] at hm
      simp [normalize_features, hm]
  refine ⟨hshape, fun fs hfs => ?_, fun d hd => ?_, fun fetchText a d hd => ?_⟩
  · rw [hshape] at hfs
    by_cases hm : containsS release.filename "-musl"
    · rw [if_pos hm] at hfs
      exact (Option.some_inj.mp hfs).symm
    · rw [if_neg hm] at hfs
      cases hfs
  · unfold liberica_map_release at hd
    cases hm : liberica_meta_from_name release.filename with
    | error e => rw [hm] at hd; cases hd
    | ok m => rw [hm] at hd; cases hd; rfl
  · unfold oracle_map_release at hd
    cases hm : oracle_meta_from_name (lastSeg a.name) with
    | error e => rw [hm] at hd; cases hd
    | ok m => rw [hm] at hd; cases hd; rfl

/-- Witness for C9 at concrete releases and a concrete anchor. -/
theorem features_invariant_witness :
    normalize_features { filename := "bellsoft-liberica-vm-core-openjdk11-21.3.1-linux-aarch64-musl.tar.gz" }
      = some ["musl"] ∧
    normalize_features { filename := "bellsoft-liberica-vm-openjdk21-23.0.0-linux-amd64.tar.gz" }
      = none ∧
    ∃ d, oracle_map_release (fun _ => .ok "abc123  jdk.tar.gz")
        ⟨"https://x/jdk-21_linux-x64_bin.tar.gz", "https://x/jdk-21_linux-x64_bin.tar.gz"⟩ =
      .ok d ∧ d.features = none := by
  refine ⟨?_, ?_, ?_⟩
  · rw [(features_invariant
      { filename := "bellsoft-liberica-vm-core-openjdk11-21.3.1-linux-aarch64-musl.tar.gz" }).1]
    decide
  · rw [(features_invariant
      { filename := "bellsoft-liberica-vm-openjdk21-23.0.0-linux-amd64.tar.gz" }).1]
    decide
  · have hsome : (oracle_map_release (fun _ => .ok "abc123  jdk.tar.gz")
        ⟨"https://x/jdk-21_linux-x64_bin.tar.gz",
         "https://x/jdk-21_linux-x64_bin.tar.gz"⟩).isOk = true := by decide
    cases hd : oracle_map_release (fun _ => .ok "abc123  jdk.tar.gz")
        ⟨"https://x/jdk-21_linux-x64_bin.tar.gz", "https://x/jdk-21_linux-x64_bin.tar.gz"⟩ with
    | error e => rw [hd] at hsome; simp [Except.isOk, Except.toBool] at hsome
    | ok d =>
      exact ⟨d, rfl,
        (features_invariant { filename := "" }).2.2.2 (fun _ => .ok "abc123  jdk.tar.gz") _ d hd⟩

/-- C10: every record produced by the Oracle extractor's `map_release` has
equal `version` and `java_version`, both obtained by `normalize_version`
from the single version component captured from the filename. -/
theorem oracle_version_fields_agree (fetchText : String → Except String String)
    (a : AnchorElement) (d : JvmData)
    (h : oracle_map_release fetchText a = .ok d) :
    d.version = d.java_version ∧
    ∃ m, oracle_meta_from_name (lastSeg a.name) = .ok m ∧
      d.version = normalize_version m.version ∧
      d.java_version = normalize_version m.version := by
  unfold oracle_map_release at h
  cases hm : oracle_meta_from_name (lastSeg a.name) with
  | error e => rw [hm] at h; cases h
  | ok m =>
    rw [hm] at h
    cases h
    exact ⟨rfl, m, rfl, rfl, rfl⟩

/-- Witness for C10 at a concrete anchor. -/
theorem oracle_version_fields_agree_witness :
    ∃ d, oracle_map_release (fun _ => .error "offline")
        ⟨"https://x/jdk-17.0.7_linux-aarch64_bin.rpm", "https://x/jdk-17.0.7_linux-aarch64_bin.rpm"⟩ =
      .ok d ∧ d.version = d.java_version := by
  have hsome : (oracle_map_release (fun _ => .error "offline")
      ⟨"https://x/jdk-17.0.7_linux-aarch64_bin.rpm",
       "https://x/jdk-17.0.7_linux-aarch64_bin.rpm"⟩).isOk = true := by decide
  cases hd : oracle_map_release (fun _ => .error "offline")
      ⟨"https://x/jdk-17.0.7_linux-aarch64_bin.rpm", "https://x/jdk-17.0.7_linux-aarch64_bin.rpm"⟩ with
  | error e => rw [hd] at hsome; simp [Except.isOk, Except.toBool] at hsome
  | ok d =>
    exact ⟨d, rfl, (oracle_version_fields_agree (fun _ => .error "offline") _ d hd).1⟩

/-! ### The Oracle naming convention, declaratively, and the parser's
soundness and completeness against it -/

/-- The language of the Oracle filename regex, as a decomposition. -/
def OracleConvention (s : List Char) : Prop :=
  ∃ ver os arch ext, 2 ≤ ver.length ∧ (∀ c ∈ ver, verChar c = true) ∧
    os ∈ osTokens ∧ arch ∈ archTokens ∧ ext ∈ oracleExts ∧
    s = jdkTok ++ ver ++ '_' :: (os ++ '-' :: (arch ++ binTok ++ ext))

theorem firstTok_sound {toks : List (List Char)} {s t r : List Char}
    (h : firstTok toks s = some (t, r)) : t ∈ toks ∧ s = t ++ r := by
  induction toks with
  | nil => simp [firstTok] at h
  | cons x xs ih =>
    cases hx : stripL x s with
    | some q =>
      rw [firstTok, hx] at h
      simp only [Option.some.injEq, Prod.mk.injEq] at h
      obtain ⟨rfl, rfl⟩ := h
      exact ⟨List.mem_cons_self .., stripL_eq_some hx⟩
    | none =>
      rw [firstTok, hx] at h
      obtain ⟨hmem, hs⟩ := ih h
      exact ⟨List.mem_cons_of_mem _ hmem, hs⟩

theorem firstTok_os (os X : List Char) (hos : os ∈ osTokens) :
    firstTok osTokens (os ++ X) = some (os, X) := by
  simp only [osTokens, List.mem_cons, List.not_mem_nil, or_false] at hos
  rcases hos with rfl | rfl | rfl
  · rfl
  · rfl
  · rfl

theorem firstTok_arch (arch X : List Char) (harch : arch ∈ archTokens) :
    firstTok archTokens (arch ++ X) = some (arch, X) := by
  simp only [archTokens, List.mem_cons, List.not_mem_nil, or_false] at harch
  rcases harch with rfl | rfl
  · rfl
  · rfl

theorem oracleStage4_sound {ver os s4 : List Char} {m : OracleMeta}
    (h : oracleStage4 ver os s4 = some m) :
    s4 = m.arch.data ++ binTok ++ m.ext.data ∧
    m.arch.data ∈ archTokens ∧ m.ext.data ∈ oracleExts ∧
    m.os.data = os ∧ m.version.data = ver := by
  unfold oracleStage4 at h
  split at h
  · cases h
  next arch s5 h5 =>
  split at h
  · cases h
  next s6 h6 =>
  split at h
  next hext =>
    simp only [Option.some.injEq] at h
    subst h
    have e5 := firstTok_sound h5
    refine ⟨?_, e5.1, hext, rfl, rfl⟩
    rw [e5.2, stripL_eq_some h6, List.append_assoc]
  · cases h

theorem oracleStage3_sound {ver s2 : List Char} {m : OracleMeta}
    (h : oracleStage3 ver s2 = some m) :
    s2 = m.os.data ++ '-' :: (m.arch.data ++ binTok ++ m.ext.data) ∧
    m.os.data ∈ osTokens ∧ m.arch.data ∈ archTokens ∧ m.ext.data ∈ oracleExts ∧
    m.version.data = ver := by
  unfold oracleStage3 at h
  split at h
  · cases h
  next os s3 h3 =>
  split at h
  · cases h
  next s4 h4 =>
    obtain ⟨e4, harch, hext, hos, hver⟩ := oracleStage4_sound h
    have e3 := firstTok_sound h3
    refine ⟨?_, hos ▸ e3.1, harch, hext, hver⟩
    rw [e3.2, stripL_eq_some h4, ← e4, hos]
    simp

theorem oracleStage2_sound {ver rest : List Char} {m : OracleMeta}
    (h : oracleStage2 ver rest = some m) :
    rest = '_' :: (m.os.data ++ '-' :: (m.arch.data ++ binTok ++ m.ext.data)) ∧
    m.os.data ∈ osTokens ∧ m.arch.data ∈ archTokens ∧ m.ext.data ∈ oracleExts ∧
    m.version.data = ver ∧ 2 ≤ ver.length := by
  unfold oracleStage2 at h
  split at h
  · cases h
  next hlen =>
  split at h
  · cases h
  next s2 h2 =>
    obtain ⟨e3, hos, harch, hext, hver⟩ := oracleStage3_sound h
    refine ⟨?_, hos, harch, hext, hver, by omega⟩
    rw [stripL_eq_some h2, ← e3]
    simp

/-- Soundness: a successful Oracle parse decomposes the input literally into
its captured fields — every field is a verbatim slice of the filename. -/
theorem oracleParse_sound {s : List Char} {m : OracleMeta} (h : oracleParse s = some m) :
    s = jdkTok ++ m.version.data ++ '_' ::
        (m.os.data ++ '-' :: (m.arch.data ++ binTok ++ m.ext.data)) ∧
    2 ≤ m.version.data.length ∧ (∀ c ∈ m.version.data, verChar c = true) ∧
    m.os.data ∈ osTokens ∧ m.arch.data ∈ archTokens ∧ m.ext.data ∈ oracleExts := by
  unfold oracleParse at h
  split at h
  · cases h
  next s1 h1 =>
    obtain ⟨e2, hos, harch, hext, hver, hlen⟩ := oracleStage2_sound h
    refine ⟨?_, hver ▸ hlen, ?_, hos, harch, hext⟩
    · rw [stripL_eq_some h1, ← List.takeWhile_append_dropWhile (p := verChar) (l := s1),
        e2, hver]
      simp [List.append_assoc]
    · intro c hc
      rw [hver] at hc
      exact List.mem_takeWhile_imp hc

theorem oracleStage4_complete (ver os arch ext : List Char)
    (harch : arch ∈ archTokens) (hext : ext ∈ oracleExts) :
    oracleStage4 ver os (arch ++ binTok ++ ext) =
      some ⟨String.mk arch, String.mk ext, String.mk os, String.mk ver⟩ := by
  simp only [oracleStage4]
  rw [List.append_assoc, firstTok_arch arch (binTok ++ ext) harch]
  dsimp only
  rw [stripL_append]
  dsimp only
  rw [if_pos hext]

theorem oracleStage3_complete (ver os arch ext : List Char)
    (hos : os ∈ osTokens) (harch : arch ∈ archTokens) (hext : ext ∈ oracleExts) :
    oracleStage3 ver (os ++ '-' :: (arch ++ binTok ++ ext)) =
      some ⟨String.mk arch, String.mk ext, String.mk os, String.mk ver⟩ := by
  simp only [oracleStage3]
  rw [firstTok_os os ('-' :: (arch ++ binTok ++ ext)) hos]
  dsimp only
  rw [show stripL ['-'] ('-' :: (arch ++ binTok ++ ext)) =
      some (arch ++ binTok ++ ext) from rfl]
  exact oracleStage4_complete ver os arch ext harch hext

/-- Completeness: every filename in the convention's language parses. -/
theorem oracleParse_complete {s : List Char} (h : OracleConvention s) :
    (oracleParse s).isSome = true := by
  obtain ⟨ver, os, arch, ext, hlen, hver, hos, harch, hext, rfl⟩ := h
  have htake := takeWhile_append_of_neg (p := verChar) '_'
    (os ++ '-' :: (arch ++ binTok ++ ext)) hver (by decide)
  rw [show jdkTok ++ ver ++ '_' :: (os ++ '-' :: (arch ++ binTok ++ ext)) =
      jdkTok ++ (ver ++ '_' :: (os ++ '-' :: (arch ++ binTok ++ ext))) from rfl]
  simp only [oracleParse, stripL_append]
  rw [htake.1, htake.2]
  simp only [oracleStage2]
  rw [if_neg (show ¬ ver.length < 2 by omega)]
  rw [show stripL ['_'] ('_' :: (os ++ '-' :: (arch ++ binTok ++ ext))) =
      some (os ++ '-' :: (arch ++ binTok ++ ext)) from rfl]
  dsimp only
  rw [oracleStage3_complete ver os arch ext hos harch hext]
  rfl

/-! ### The Liberica naming convention, declaratively, and the parser's
soundness and completeness against it -/

/-- The conditions the regex places on the tail data of a Liberica match:
the wildcard `.` excludes newlines and the extension is from the anchored
alternation. -/
def midOk (r : MidRes) : Prop :=
  midDot r ≠ '\n' ∧ midExt r ∈ libExts ∧
  nlFree (midJava r) ∧ nlFree (midVer r) ∧ nlFree (midOs r) ∧ nlFree (midArch r)

/-- The language of the Liberica filename regex, as a decomposition. -/
def LibericaConvention (s : List Char) : Prop :=
  ∃ b r, (b = [] ∨ b = coreTok ∨ b = fullTok) ∧ midOk r ∧
    s = vmTok ++ b ++ openTok ++ midStr r

theorem dotExt_sound {t : List Char} {c : Char} {e : List Char}
    (h : dotExt t = some (c, e)) : t = c :: e ∧ c ≠ '\n' ∧ e ∈ libExts := by
  cases t with
  | nil => simp [dotExt] at h
  | cons c0 rest =>
    simp only [dotExt] at h
    by_cases hcond : c0 ≠ '\n' ∧ rest ∈ libExts
    · rw [if_pos hcond] at h
      simp only [Option.some.injEq, Prod.mk.injEq] at h
      obtain ⟨rfl, rfl⟩ := h
      exact ⟨rfl, hcond.1, hcond.2⟩
    · rw [if_neg hcond] at h
      cases h

theorem muslPart_sound {t : List Char} {x : Bool × Char × List Char}
    (h : muslPart t = some x) :
    t = (if x.1 then muslTok else []) ++ x.2.1 :: x.2.2 ∧ x.2.1 ≠ '\n' ∧ x.2.2 ∈ libExts := by
  obtain ⟨m, c, e⟩ := x
  unfold muslPart at h
  split at h
  next t2 hstrip =>
    split at h
    next ce hdot =>
      simp only [Option.some.injEq, Prod.mk.injEq] at h
      obtain ⟨rfl, rfl, rfl⟩ := h
      obtain ⟨h1, h2, h3⟩ := dotExt_sound (show dotExt t2 = some (ce.1, ce.2) from hdot)
      refine ⟨?_, h2, h3⟩
      rw [stripL_eq_some hstrip, h1]
      simp
    next hdot =>
      cases hdt : dotExt t with
      | none => rw [hdt] at h; cases h
      | some ce =>
        rw [hdt] at h
        simp only [Option.map_some', Option.some.injEq, Prod.mk.injEq] at h
        obtain ⟨rfl, rfl, rfl⟩ := h
        obtain ⟨h1, h2, h3⟩ := dotExt_sound (show dotExt t = some (ce.1, ce.2) from hdt)
        exact ⟨by simpa using h1, h2, h3⟩
  next hstrip =>
    cases hdt : dotExt t with
    | none => rw [hdt] at h; cases h
    | some ce =>
      rw [hdt] at h
      simp only [Option.map_some', Option.some.injEq, Prod.mk.injEq] at h
      obtain ⟨rfl, rfl, rfl⟩ := h
      obtain ⟨h1, h2, h3⟩ := dotExt_sound (show dotExt t = some (ce.1, ce.2) from hdt)
      exact ⟨by simpa using h1, h2, h3⟩

theorem tailPart_sound {t : List Char} {tr : TailRes} (h : tailPart t = some tr) :
    t = tailStr tr ∧ tr.dot ≠ '\n' ∧ tr.ext ∈ libExts := by
  obtain ⟨d, m, c, e⟩ := tr
  unfold tailPart at h
  split at h
  next t1 hstrip =>
    split at h
    next x hm =>
      simp only [Option.some.injEq, TailRes.mk.injEq] at h
      obtain ⟨rfl, rfl, rfl, rfl⟩ := h
      obtain ⟨h1, h2, h3⟩ := muslPart_sound hm
      refine ⟨?_, h2, h3⟩
      rw [tailStr, stripL_eq_some hstrip, h1]
      simp
    next hm =>
      cases hmp : muslPart t with
      | none => rw [hmp] at h; cases h
      | some x =>
        rw [hmp] at h
        simp only [Option.map_some', Option.some.injEq, TailRes.mk.injEq] at h
        obtain ⟨rfl, rfl, rfl, rfl⟩ := h
        obtain ⟨h1, h2, h3⟩ := muslPart_sound hmp
        refine ⟨?_, h2, h3⟩
        rw [tailStr, h1]
        simp
  next hstrip =>
    cases hmp : muslPart t with
    | none => rw [hmp] at h; cases h
    | some x =>
      rw [hmp] at h
      simp only [Option.map_some', Option.some.injEq, TailRes.mk.injEq] at h
      obtain ⟨rfl, rfl, rfl, rfl⟩ := h
      obtain ⟨h1, h2, h3⟩ := muslPart_sound hmp
      refine ⟨?_, h2, h3⟩
      rw [tailStr, h1]
      simp

theorem archPart_sound {s : List Char} {ar : ArchRes} (h : archPart s = some ar) :
    s = archStr ar ∧ ar.tail.dot ≠ '\n' ∧ ar.tail.ext ∈ libExts ∧ nlFree ar.arch := by
  obtain ⟨pq, hmem, hpq⟩ := firstSome_eq_some h
  cases htp : tailPart pq.2 with
  | none => rw [htp] at hpq; cases hpq
  | some tr =>
    rw [htp] at hpq
    simp only [Option.map_some', Option.some.injEq] at hpq
    subst hpq
    obtain ⟨h1, h2, h3⟩ := tailPart_sound htp
    exact ⟨by rw [archStr, (dotSplits_sound hmem).1, h1], h2, h3, (dotSplits_sound hmem).2⟩

theorem osPart_sound {s : List Char} {osr : OsRes} (h : osPart s = some osr) :
    s = osStr osr ∧ osr.rest.tail.dot ≠ '\n' ∧ osr.rest.tail.ext ∈ libExts ∧
      nlFree osr.os ∧ nlFree osr.rest.arch := by
  obtain ⟨pq, hmem, hpq⟩ := firstSome_eq_some h
  split at hpq
  next r2 hds =>
    cases hap : archPart r2 with
    | none => rw [hap] at hpq; cases hpq
    | some ar =>
      rw [hap] at hpq
      simp only [Option.map_some', Option.some.injEq] at hpq
      subst hpq
      obtain ⟨h1, h2, h3, h4⟩ := archPart_sound hap
      refine ⟨?_, h2, h3, (dotSplits_sound hmem).2, h4⟩
      rw [osStr, (dotSplits_sound hmem).1, stripL_eq_some hds, h1]
      simp
  next => cases hpq

theorem dashOs_sound {s : List Char} {osr : OsRes} (h : dashOs s = some osr) :
    s = '-' :: osStr osr ∧ osr.rest.tail.dot ≠ '\n' ∧ osr.rest.tail.ext ∈ libExts ∧
      nlFree osr.os ∧ nlFree osr.rest.arch := by
  unfold dashOs at h
  split at h
  next s2 hstrip =>
    obtain ⟨h1, h2, h3, h4, h5⟩ := osPart_sound h
    refine ⟨?_, h2, h3, h4, h5⟩
    rw [stripL_eq_some hstrip, h1]
    simp
  next => cases h

theorem eaPart_sound {s : List Char} {er : EaRes} (h : eaPart s = some er) :
    s = eaStr er ∧ er.rest.rest.tail.dot ≠ '\n' ∧ er.rest.rest.tail.ext ∈ libExts ∧
      nlFree er.rest.os ∧ nlFree er.rest.rest.arch := by
  obtain ⟨b, osr⟩ := er
  unfold eaPart at h
  split at h
  next s2 hstrip =>
    split at h
    next x hdo =>
      simp only [Option.some.injEq, EaRes.mk.injEq] at h
      obtain ⟨rfl, rfl⟩ := h
      obtain ⟨h1, h2, h3, h4, h5⟩ := dashOs_sound hdo
      refine ⟨?_, h2, h3, h4, h5⟩
      rw [eaStr, stripL_eq_some hstrip, h1]
      simp
    next hdo =>
      cases hds : dashOs s with
      | none => rw [hds] at h; cases h
      | some x =>
        rw [hds] at h
        simp only [Option.map_some', Option.some.injEq, EaRes.mk.injEq] at h
        obtain ⟨rfl, rfl⟩ := h
        obtain ⟨h1, h2, h3, h4, h5⟩ := dashOs_sound hds
        refine ⟨?_, h2, h3, h4, h5⟩
        rw [eaStr, h1]
        simp
  next hstrip =>
    cases hds : dashOs s with
    | none => rw [hds] at h; cases h
    | some x =>
      rw [hds] at h
      simp only [Option.map_some', Option.some.injEq, EaRes.mk.injEq] at h
      obtain ⟨rfl, rfl⟩ := h
      obtain ⟨h1, h2, h3, h4, h5⟩ := dashOs_sound hds
      refine ⟨?_, h2, h3, h4, h5⟩
      rw [eaStr, h1]
      simp

theorem verPart_sound {s : List Char} {vr : VerRes} (h : verPart s = some vr) :
    s = verStr vr ∧ vr.rest.rest.rest.tail.dot ≠ '\n' ∧
      vr.rest.rest.rest.tail.ext ∈ libExts ∧ nlFree vr.version ∧
      nlFree vr.rest.rest.os ∧ nlFree vr.rest.rest.rest.arch := by
  obtain ⟨pq, hmem, hpq⟩ := firstSome_eq_some h
  cases hea : eaPart pq.2 with
  | none => rw [hea] at hpq; cases hpq
  | some er =>
    rw [hea] at hpq
    simp only [Option.map_some', Option.some.injEq] at hpq
    subst hpq
    obtain ⟨h1, h2, h3, h4, h5⟩ := eaPart_sound hea
    exact ⟨by rw [verStr, (dotSplits_sound hmem).1, h1], h2, h3,
      (dotSplits_sound hmem).2, h4, h5⟩

theorem libMid_sound {s : List Char} {mr : MidRes} (h : libMid s = some mr) :
    s = midStr mr ∧ midOk mr := by
  obtain ⟨pq, hmem, hpq⟩ := firstSome_eq_some h
  split at hpq
  next r2 hds =>
    cases hvp : verPart r2 with
    | none => rw [hvp] at hpq; cases hpq
    | some vr =>
      rw [hvp] at hpq
      simp only [Option.map_some', Option.some.injEq] at hpq
      subst hpq
      obtain ⟨h1, h2, h3, h4, h5, h6⟩ := verPart_sound hvp
      refine ⟨?_, h2, h3, (dotSplits_sound hmem).2, h4, h5, h6⟩
      rw [midStr, (dotSplits_sound hmem).1, stripL_eq_some hds, h1]
      simp
  next => cases hpq

theorem libParse_sound {s b : List Char} {r : MidRes} (h : libParse s = some (b, r)) :
    s = vmTok ++ b ++ openTok ++ midStr r ∧
    (b = [] ∨ b = coreTok ∨ b = fullTok) ∧ midOk r := by
  unfold libParse at h
  split at h
  · cases h
  next rest h0 =>
  split at h
  next mid h1 =>
    cases hlm : libMid mid with
    | none => rw [hlm] at h; cases h
    | some mr =>
      rw [hlm] at h
      simp only [Option.map_some', Option.some.injEq, Prod.mk.injEq] at h
      obtain ⟨rfl, rfl⟩ := h
      obtain ⟨h2, h3⟩ := libMid_sound hlm
      refine ⟨?_, Or.inr (Or.inl rfl), h3⟩
      rw [stripL_eq_some h0, stripL_eq_some h1, h2]
      simp [coreTok, openTok]
  next h1 =>
  split at h
  next mid h2 =>
    cases hlm : libMid mid with
    | none => rw [hlm] at h; cases h
    | some mr =>
      rw [hlm] at h
      simp only [Option.map_some', Option.some.injEq, Prod.mk.injEq] at h
      obtain ⟨rfl, rfl⟩ := h
      obtain ⟨h3, h4⟩ := libMid_sound hlm
      refine ⟨?_, Or.inr (Or.inr rfl), h4⟩
      rw [stripL_eq_some h0, stripL_eq_some h2, h3]
      simp [fullTok, openTok]
  next h2 =>
  split at h
  next mid h3 =>
    cases hlm : libMid mid with
    | none => rw [hlm] at h; cases h
    | some mr =>
      rw [hlm] at h
      simp only [Option.map_some', Option.some.injEq, Prod.mk.injEq] at h
      obtain ⟨rfl, rfl⟩ := h
      obtain ⟨h4, h5⟩ := libMid_sound hlm
      refine ⟨?_, Or.inl rfl, h5⟩
      rw [stripL_eq_some h0, stripL_eq_some h3, h4]
      simp
  next => cases h

theorem dotExt_complete (c : Char) (e : List Char) (hc : c ≠ '\n') (he : e ∈ libExts) :
    dotExt (c :: e) = some (c, e) := by
  simp only [dotExt]
  rw [if_pos ⟨hc, he⟩]

theorem muslPart_isSome_of {t : List Char} (h : (dotExt t).isSome = true) :
    (muslPart t).isSome = true := by
  unfold muslPart
  split
  next t2 hstrip =>
    split
    · simp
    · cases hdt : dotExt t with
      | none => rw [hdt] at h; cases h
      | some ce => simp
  next =>
    cases hdt : dotExt t with
    | none => rw [hdt] at h; cases h
    | some ce => simp

theorem muslPart_complete (m : Bool) (c : Char) (e : List Char)
    (hc : c ≠ '\n') (he : e ∈ libExts) :
    (muslPart ((if m then muslTok else []) ++ c :: e)).isSome = true := by
  cases m with
  | true =>
    show (muslPart (muslTok ++ c :: e)).isSome = true
    unfold muslPart
    rw [stripL_append]
    dsimp only
    rw [dotExt_complete c e hc he]
    rfl
  | false =>
    show (muslPart (c :: e)).isSome = true
    exact muslPart_isSome_of (by rw [dotExt_complete c e hc he]; rfl)

theorem tailPart_isSome_of {t : List Char} (h : (muslPart t).isSome = true) :
    (tailPart t).isSome = true := by
  unfold tailPart
  split
  next t1 hstrip =>
    split
    · simp
    · cases hmp : muslPart t with
      | none => rw [hmp] at h; cases h
      | some x => simp
  next =>
    cases hmp : muslPart t with
    | none => rw [hmp] at h; cases h
    | some x => simp

theorem tailPart_complete (tr : TailRes) (hc : tr.dot ≠ '\n') (he : tr.ext ∈ libExts) :
    (tailPart (tailStr tr)).isSome = true := by
  obtain ⟨d, m, c, e⟩ := tr
  cases d with
  | true =>
    have hm := muslPart_complete m c e hc he
    unfold tailPart
    rw [show stripL ['-'] (tailStr ⟨true, m, c, e⟩) =
        some ((if m then muslTok else []) ++ c :: e) from rfl]
    dsimp only
    cases hmp : muslPart ((if m then muslTok else []) ++ c :: e) with
    | none => rw [hmp] at hm; cases hm
    | some x => simp [hmp]
  | false =>
    have : tailStr ⟨false, m, c, e⟩ = (if m then muslTok else []) ++ c :: e := by
      simp [tailStr]
    rw [this]
    exact tailPart_isSome_of (muslPart_complete m c e hc he)

theorem archPart_complete (arch tail : List Char) (hfree : nlFree arch)
    (h : (tailPart tail).isSome = true) :
    (archPart (arch ++ tail)).isSome = true := by
  refine firstSome_isSome (dotSplits_complete arch tail hfree) ?_
  cases htp : tailPart tail with
  | none => rw [htp] at h; cases h
  | some tr => simp [htp]

theorem osPart_complete (os r : List Char) (hfree : nlFree os)
    (h : (archPart r).isSome = true) :
    (osPart (os ++ '-' :: r)).isSome = true := by
  refine firstSome_isSome (dotSplits_complete os ('-' :: r) hfree) ?_
  dsimp only
  rw [show stripL ['-'] ('-' :: r) = some r from rfl]
  dsimp only
  cases hap : archPart r with
  | none => rw [hap] at h; cases h
  | some ar => simp [hap]

theorem dashOs_complete (r : List Char) (h : (osPart r).isSome = true) :
    (dashOs ('-' :: r)).isSome = true := by
  unfold dashOs
  rw [show stripL ['-'] ('-' :: r) = some r from rfl]
  exact h

theorem eaPart_isSome_of {s : List Char} (h : (dashOs s).isSome = true) :
    (eaPart s).isSome = true := by
  unfold eaPart
  split
  next s2 hstrip =>
    split
    · simp
    · cases hds : dashOs s with
      | none => rw [hds] at h; cases h
      | some x => simp
  next =>
    cases hds : dashOs s with
    | none => rw [hds] at h; cases h
    | some x => simp

theorem eaPart_complete (b : Bool) (X : List Char) (h : (osPart X).isSome = true) :
    (eaPart ((if b then eaTok else []) ++ '-' :: X)).isSome = true := by
  cases b with
  | true =>
    have hdo := dashOs_complete X h
    show (eaPart (eaTok ++ '-' :: X)).isSome = true
    unfold eaPart
    rw [stripL_append]
    dsimp only
    cases hds : dashOs ('-' :: X) with
    | none => rw [hds] at hdo; cases hdo
    | some x => simp [hds]
  | false =>
    show (eaPart ('-' :: X)).isSome = true
    exact eaPart_isSome_of (dashOs_complete X h)

theorem verPart_complete (ver Y : List Char) (hfree : nlFree ver)
    (h : (eaPart Y).isSome = true) :
    (verPart (ver ++ Y)).isSome = true := by
  refine firstSome_isSome (dotSplits_complete ver Y hfree) ?_
  cases hea : eaPart Y with
  | none => rw [hea] at h; cases h
  | some er => simp [hea]

theorem libMid_complete_step (java Y : List Char) (hfree : nlFree java)
    (h : (verPart Y).isSome = true) :
    (libMid (java ++ '-' :: Y)).isSome = true := by
  refine firstSome_isSome (dotSplits_complete java ('-' :: Y) hfree) ?_
  dsimp only
  rw [show stripL ['-'] ('-' :: Y) = some Y from rfl]
  dsimp only
  cases hvp : verPart Y with
  | none => rw [hvp] at h; cases h
  | some vr => simp [hvp]

/-- Every reassembled match (with a legal wildcard and extension) is found
by the middle-part search. -/
theorem libMid_complete (r : MidRes) (h : midOk r) : (libMid (midStr r)).isSome = true := by
  obtain ⟨java, ver, ea, os, arch, d, m, c, e⟩ := r
  exact libMid_complete_step java _ h.2.2.1 (verPart_complete ver _ h.2.2.2.1
    (eaPart_complete ea _ (osPart_complete os _ h.2.2.2.2.1
      (archPart_complete arch _ h.2.2.2.2.2
        (tailPart_complete ⟨d, m, c, e⟩ h.1 h.2.1)))))

/-- Completeness: every filename in the Liberica convention's language parses. -/
theorem libParse_complete {s : List Char} (h : LibericaConvention s) :
    (libParse s).isSome = true := by
  obtain ⟨b, r, hb, hok, rfl⟩ := h
  have hmid := libMid_complete r hok
  rcases hb with rfl | rfl | rfl
  · rw [show vmTok ++ [] ++ openTok ++ midStr r = vmTok ++ (openTok ++ midStr r) by simp]
    unfold libParse
    rw [stripL_append]
    dsimp only
    rw [show stripL (coreTok ++ openTok) (openTok ++ midStr r) = none from rfl]
    rw [show stripL (fullTok ++ openTok) (openTok ++ midStr r) = none from rfl]
    rw [stripL_append]
    cases hlm : libMid (midStr r) with
    | none => rw [hlm] at hmid; cases hmid
    | some mr => simp [hlm]
  · rw [show vmTok ++ coreTok ++ openTok ++ midStr r =
        vmTok ++ ((coreTok ++ openTok) ++ midStr r) by simp]
    unfold libParse
    rw [stripL_append]
    dsimp only
    rw [stripL_append]
    dsimp only
    cases hlm : libMid (midStr r) with
    | none => rw [hlm] at hmid; cases hmid
    | some mr => simp [hlm]
  · rw [show vmTok ++ fullTok ++ openTok ++ midStr r =
        vmTok ++ ((fullTok ++ openTok) ++ midStr r) by simp]
    unfold libParse
    rw [stripL_append]
    dsimp only
    rw [show stripL (coreTok ++ openTok) ((fullTok ++ openTok) ++ midStr r) = none from rfl]
    rw [stripL_append]
    dsimp only
    cases hlm : libMid (midStr r) with
    | none => rw [hlm] at hmid; cases hmid
    | some mr => simp [hlm]

/-- The leftmost-first match found in the repository's own Liberica test
vector `bellsoft-liberica-vm-core-openjdk11-21.3.1-linux-aarch64-musl.tar.gz`. -/
def libWitnessMid : MidRes :=
  ⟨"11".data, ⟨"21.3.1".data, ⟨false, ⟨"linux".data,
    ⟨"aarch64".data, ⟨true, true, '.', "tar.gz".data⟩⟩⟩⟩⟩⟩

/-- C3: for every filename that violates the source's structural naming
convention (wrong extension, missing required component, or — for Oracle —
an unrecognized OS/architecture token), the per-source filename parser
fails (contrapositive: every convention-conforming name parses); and a
successful parse never contains a guessed or placeholder field — the
captured fields are verbatim slices that reassemble the filename exactly
(and, for Liberica, newline-free, since the regex's `.*?` captures cannot
cross a newline).  The two final conjuncts check the six invalid names of
the repository's own Oracle test and a Liberica name whose would-be capture
contains a newline. -/
theorem filename_convention_enforced (s t : List Char) :
    (∀ m : OracleMeta, oracleParse s = some m →
      s = jdkTok ++ m.version.data ++ '_' ::
        (m.os.data ++ '-' :: (m.arch.data ++ binTok ++ m.ext.data)) ∧
      2 ≤ m.version.data.length ∧ (∀ c ∈ m.version.data, verChar c = true) ∧
      m.os.data ∈ osTokens ∧ m.arch.data ∈ archTokens ∧ m.ext.data ∈ oracleExts) ∧
    (OracleConvention s → (oracleParse s).isSome = true) ∧
    (∀ (b : List Char) (r : MidRes), libParse t = some (b, r) →
      t = vmTok ++ b ++ openTok ++ midStr r ∧
      (b = [] ∨ b = coreTok ∨ b = fullTok) ∧ midOk r) ∧
    (LibericaConvention t → (libParse t).isSome = true) ∧
    (["graalvm-jdk-21_linux-aarch64_bin.tar.gz", "jdk-21.0.4_linux_bin.tar.gz",
      "jdk-21.0.4_linux-aarch64.tar.gz", "jdk-21.0.4_linux-aarch64_bin.unknown",
      "jdk-21.0.4_unknown-aarch64_bin.tar.gz",
      "jdk-21.0.4_linux-unknown_bin.tar.gz"].all
        (fun n => !(oracle_meta_from_name n).isOk)) = true ∧
    (liberica_meta_from_name "bellsoft-liberica-vm-openjdk1\n-2-linux-x64.zip").isOk
      = false := by
  exact ⟨fun m hm => oracleParse_sound hm, oracleParse_complete,
    fun b r h => libParse_sound h, libParse_complete, by decide, by decide⟩

/-- Witness for C3: a convention-conforming Oracle name and Liberica name
each parse, and their parses reassemble the names verbatim. -/
theorem filename_convention_enforced_witness :
    "jdk-21_macos-aarch64_bin.tar.gz".data =
      jdkTok ++ "21".data ++ '_' ::
        ("macos".data ++ '-' :: ("aarch64".data ++ binTok ++ "tar.gz".data)) ∧
    (oracleParse "jdk-21_macos-aarch64_bin.tar.gz".data).isSome = true ∧
    "bellsoft-liberica-vm-core-openjdk11-21.3.1-linux-aarch64-musl.tar.gz".data =
      vmTok ++ coreTok ++ openTok ++ midStr libWitnessMid ∧
    (libParse "bellsoft-liberica-vm-core-openjdk11-21.3.1-linux-aarch64-musl.tar.gz".data).isSome
      = true := by
  have h := filename_convention_enforced "jdk-21_macos-aarch64_bin.tar.gz".data
    "bellsoft-liberica-vm-core-openjdk11-21.3.1-linux-aarch64-musl.tar.gz".data
  refine ⟨?_, ?_, ?_, ?_⟩
  · exact (h.1 ⟨"aarch64", "tar.gz", "macos", "21"⟩ (by decide)).1
  · exact h.2.1 ⟨"21".data, "macos".data, "aarch64".data, "tar.gz".data,
      by decide, by decide, by decide, by decide, by decide, by decide⟩
  · exact (h.2.2.1 coreTok libWitnessMid (by decide)).1
  · exact h.2.2.2.1
      ⟨coreTok, libWitnessMid, Or.inr (Or.inl rfl),
        ⟨by decide, by decide, by decide, by decide, by decide, by decide⟩, by decide⟩

end MiseJava
